import Mathlib

/-!
Verification of the augmentor image-augmentation pipeline (src/augmentor.py)
against its natural-language specification.

The Python source is shallowly embedded: Python floats become exact rationals
(`ℚ`), Python's `round` (ties to even) becomes `pyRound`, the mutable module
state (`stats`, `hashes`) becomes an explicit `RState` threaded through
`process_image`, the external image library (PIL / imagehash) becomes a record
of abstract pixel operations `PixelOps`, and the random draws of each crop
become explicit inputs (`CropRand`).
-/

namespace Augmentor

/-- Python's built-in `round` on exact rationals: round half to even. -/
def pyRound (q : ℚ) : ℤ :=
  if q - ⌊q⌋ < 1/2 then ⌊q⌋
  else if 1/2 < q - ⌊q⌋ then ⌊q⌋ + 1
  else if ⌊q⌋ % 2 = 0 then ⌊q⌋ else ⌊q⌋ + 1

/-- Embedding of `get_max_window_size` (src/augmentor.py lines 23-32):
largest inscribed rectangle of aspect ratio `ratio` in a `width × height`
image.  The Python `elif ratio < current_ratio` is the final case by
trichotomy. -/
def get_max_window_size (width height : ℕ) (ratio : ℚ) : ℤ × ℤ :=
  let current_ratio : ℚ := (width : ℚ) / (height : ℚ)
  if ratio = current_ratio then ((width : ℤ), (height : ℤ))
  else if current_ratio < ratio then ((width : ℤ), pyRound ((width : ℚ) / ratio))
  else (pyRound ((height : ℚ) * ratio), (height : ℤ))

/-- Decimal digit list of a natural number, embedding Python's `str(n)`
as it appears inside the f-string filenames.  Fuel-based structural
recursion so that it reduces in the kernel. -/
def natDigitsAux : ℕ → ℕ → List Char
  | 0, _ => []
  | _ + 1, 0 => []
  | fuel + 1, n + 1 => natDigitsAux fuel ((n + 1) / 10) ++ [Nat.digitChar ((n + 1) % 10)]

def natDigits (n : ℕ) : List Char :=
  if n = 0 then ['0'] else natDigitsAux n n

def natStr (n : ℕ) : String := ⟨natDigits n⟩

/-- Inverse of `Nat.digitChar` on decimal digits, used to recover the
variant index from a filename. -/
def charToDigit (c : Char) : ℕ := c.toNat - 48

/-- Two-digit zero padding for the fractional part of fixed-point formatting. -/
def pad2 (n : ℕ) : String := if n < 10 then "0" ++ natStr n else natStr n

/-- Embedding of Python's fixed-point formatting `f"{q:.2f}"` on exact
rationals: round `q * 100` half to even and print with two decimals. -/
def format2f (q : ℚ) : String :=
  let n : ℤ := pyRound (q * 100)
  (if n < 0 then "-" else "") ++ natStr (n.natAbs / 100) ++ "." ++ pad2 (n.natAbs % 100)

/-- The run configuration (the argparse namespace of src/augmentor.py,
already validated, restricted to the fields `process_image` and `run` read). -/
structure Config where
  width : ℕ
  height : ℕ
  dedupe_input : Bool
  crops : ℕ
  scale_min : ℚ
  scale_max : ℚ
  autocontrast : ℚ
  cutoff_min : ℚ
  cutoff_max : ℚ
  randomize : Bool
  format : String
  jpg_quality : ℕ
  output_dir : String
deriving DecidableEq

/-- A decoded image: its dimensions plus an abstract pixel-buffer tag. -/
structure Image where
  width : ℕ
  height : ℕ
  data : ℕ
deriving DecidableEq

/-- The external image collaborators (PIL and imagehash), abstracted as
pure operations: decoding, the pixel transforms, and the perceptual hash. -/
structure PixelOps where
  load : String → Option Image
  autocontrast : Image → ℚ → Image
  crop : Image → ℤ × ℤ × ℤ × ℤ → Image
  resize : Image → ℕ × ℕ → Image
  average_hash : Image → ℕ

/-- The random draws consumed by one iteration of the crop loop:
`random.random()` for the autocontrast decision, the two `random.uniform`
draws as their underlying `[0,1]` parameter, and the two `random.randint`
results for the crop position. -/
structure CropRand where
  acDraw : ℚ
  cutoffT : ℚ
  scaleT : ℚ
  left : ℕ
  top : ℕ
deriving DecidableEq

/-- The shared mutable module state of src/augmentor.py lines 15-19:
the two statistics counters and the global fingerprint list `hashes`. -/
structure RState where
  images_collected : ℕ
  images_duplicated : ℕ
  hashes : List ℕ
deriving DecidableEq

/-- Terminal state of one worker for one file. -/
inductive Outcome where
  | error : Outcome
  | skipped : Outcome
  | duplicate : Outcome
  | ok : ℕ → Outcome
deriving DecidableEq

/-- `random.uniform a b` with the underlying `random.random()` draw `t`. -/
def uniform (a b t : ℚ) : ℚ := a + t * (b - a)

/-- `pathlib.Path(file).stem`: final path component without its last suffix. -/
def stemOf (file : String) : String :=
  let base := (file.splitOn "/").getLastD ""
  let parts := base.splitOn "."
  if parts.length ≤ 1 then base else String.intercalate "." parts.dropLast

/-- The output filename of variant `n` (src/augmentor.py lines 98-101).
`cutoff = none` stands for the Python `cutoff = False`, which the f-string
`{cutoff:.2f}` formats exactly like the number 0. -/
def outfile (cfg : Config) (stem : String) (n : ℕ) (cutoff : Option ℚ) : String :=
  let cutoffStr := match cutoff with
    | none => format2f 0
    | some c => format2f c
  if cfg.randomize then
    cfg.output_dir ++ "/" ++ natStr n ++ "-" ++ stem ++ "--ac" ++ cutoffStr ++ "." ++ cfg.format
  else
    cfg.output_dir ++ "/" ++ stem ++ "-" ++ natStr n ++ "--ac" ++ cutoffStr ++ "." ++ cfg.format

/-- The autocontrast decision and cutoff draw of one crop
(src/augmentor.py lines 77-82). -/
def cutoffDrawn (cfg : Config) (r : CropRand) : Option ℚ :=
  if r.acDraw < cfg.autocontrast then some (uniform cfg.cutoff_min cfg.cutoff_max r.cutoffT)
  else none

/-- The scale draw of one crop (src/augmentor.py lines 85-86): the lower
bound of the uniform draw is raised to `max (width / ww) scale_min`. -/
def scaleDrawn (cfg : Config) (wmax : ℤ × ℤ) (r : CropRand) : ℚ :=
  uniform (max ((cfg.width : ℚ) / (wmax.1 : ℚ)) cfg.scale_min) cfg.scale_max r.scaleT

/-- Crop rectangle dimensions before the final resize
(src/augmentor.py lines 87-88). -/
def crop_dims (wmax : ℤ × ℤ) (scale : ℚ) : ℤ × ℤ :=
  (pyRound (scale * (wmax.1 : ℚ)), pyRound (scale * (wmax.2 : ℚ)))

/-- One iteration of the variant-generation loop (src/augmentor.py lines
74-102): the filename and the generated image of variant `n`. -/
def gen_variant (cfg : Config) (ops : PixelOps) (stem : String) (img : Image)
    (wmax : ℤ × ℤ) (n : ℕ) (r : CropRand) : String × Image :=
  let ac := cutoffDrawn cfg r
  let image := match ac with
    | some c => ops.autocontrast img c
    | none => img
  let scale := scaleDrawn cfg wmax r
  let dims := crop_dims wmax scale
  let box := ((r.left : ℤ), (r.top : ℤ), (r.left : ℤ) + dims.1, (r.top : ℤ) + dims.2)
  let image_cropped := ops.resize (ops.crop image box) (cfg.width, cfg.height)
  (outfile cfg stem n ac, image_cropped)

/-- Python dict assignment `d[k] = v`: update in place when the key exists,
append otherwise. -/
def dictInsert (k : String) (v : Image) : List (String × Image) → List (String × Image)
  | [] => [(k, v)]
  | p :: rest => if p.1 = k then (k, v) :: rest else p :: dictInsert k v rest

/-- The `variants` dict after the generation loop
(src/augmentor.py lines 73-102), in insertion order. -/
def gen_variants (cfg : Config) (ops : PixelOps) (stem : String) (img : Image)
    (wmax : ℤ × ℤ) (rand : ℕ → CropRand) : List (String × Image) :=
  (List.range' 1 cfg.crops).foldl
    (fun d n =>
      let p := gen_variant cfg ops stem img wmax n (rand n)
      dictInsert p.1 p.2 d)
    []

/-- The save loop (src/augmentor.py lines 104-113): drop a variant whose
fingerprint was already recorded, otherwise record the fingerprint, write
the file and count it.  Returns the written filenames and `variants_saved`. -/
def save_variants (f : Image → ℕ) : List (String × Image) → List ℕ → List String × ℕ
  | [], _ => ([], 0)
  | p :: rest, seen =>
    if f p.2 ∈ seen then save_variants f rest seen
    else
      let r := save_variants f rest (seen ++ [f p.2])
      (p.1 :: r.1, r.2 + 1)

/-- The window computation of src/augmentor.py line 71. -/
def window_of (cfg : Config) (w h : ℕ) : ℤ × ℤ :=
  get_max_window_size w h ((cfg.width : ℚ) / (cfg.height : ℚ))

/-- Embedding of `process_image` (src/augmentor.py lines 45-116) as a pure
state transformer: the per-image outcome, the updated shared state and the
list of files written. -/
def process_image (cfg : Config) (ops : PixelOps) (file : String)
    (rand : ℕ → CropRand) (s : RState) : Outcome × RState × List String :=
  match ops.load file with
  | none => (Outcome.error, s, [])
  | some image_original =>
    if image_original.width < cfg.width ∨ image_original.height < cfg.height then
      (Outcome.skipped, s, [])
    else if cfg.dedupe_input = true ∧ ops.average_hash image_original ∈ s.hashes then
      (Outcome.duplicate,
        { s with images_duplicated := s.images_duplicated + 1 }, [])
    else
      let s1 := if cfg.dedupe_input then
          { s with hashes := s.hashes ++ [ops.average_hash image_original] }
        else s
      let vs := gen_variants cfg ops (stemOf file) image_original
        (window_of cfg image_original.width image_original.height) rand
      let res := save_variants ops.average_hash vs []
      (Outcome.ok res.2,
        { s1 with images_collected := s1.images_collected + res.2 }, res.1)

/-- Sequential composition of the workers over the file list: the thread
pool of src/augmentor.py line 149, one worker at a time. -/
def process_all (cfg : Config) (ops : PixelOps) (rand : ℕ → ℕ → CropRand) :
    List String → ℕ → RState → List Outcome × RState × List String
  | [], _, s => ([], s, [])
  | f :: rest, i, s =>
    let r := process_image cfg ops f (rand i) s
    let rs := process_all cfg ops rand rest (i + 1) r.2.1
    (r.1 :: rs.1, rs.2.1, r.2.2 ++ rs.2.2)

/-- The input-selection step (src/augmentor.py lines 131-135): `--limit` is
applied via `random.sample` inside `try/except`.  A falsy limit (absent or
zero) keeps all files; a failing sample (limit negative or larger than the
list) is swallowed by the `except` and keeps all files.  `chosen` is the
sample drawn when sampling succeeds. -/
def select_files (files chosen : List String) (limit : Option ℤ) : List String :=
  match limit with
  | none => files
  | some k =>
    if k = 0 then files
    else if 0 ≤ k ∧ k.toNat ≤ files.length then chosen
    else files

/-- One thread's unsynchronised `stats[...] += 1` (src/augmentor.py lines 66
and 115) split into its two machine steps: read the counter into a
thread-local temporary, then write back temporary + 1. -/
inductive CtrStep where
  | read : ℕ → CtrStep
  | write : ℕ → CtrStep
deriving DecidableEq

def tupdate (t : ℕ → ℕ) (w v : ℕ) : ℕ → ℕ := fun x => if x = w then v else t x

/-- Execute an interleaving of counter increments: the state is the shared
counter plus each worker's thread-local temporary. -/
def runSched : List CtrStep → ℕ → (ℕ → ℕ) → ℕ
  | [], c, _ => c
  | CtrStep.read w :: rest, c, t => runSched rest c (tupdate t w c)
  | CtrStep.write w :: rest, _, t => runSched rest (t w + 1) t

/-- Fixture: degenerate random draws (all zero). -/
def rand0 : CropRand := { acDraw := 0, cutoffT := 0, scaleT := 0, left := 0, top := 0 }

/-- Fixture: an image with given dimensions and buffer tag. -/
def imgOf (w h d : ℕ) : Image := { width := w, height := h, data := d }

/-- Fixture: external operations decoding every file to the same image;
the fingerprint of an image is its buffer tag. -/
def opsConst (img : Image) : PixelOps :=
  { load := fun _ => some img
    autocontrast := fun i _ => i
    crop := fun i _ => i
    resize := fun i _ => i
    average_hash := fun i => i.data }

/-- Fixture: external operations whose decoder always fails. -/
def opsFail : PixelOps :=
  { load := fun _ => none
    autocontrast := fun i _ => i
    crop := fun i _ => i
    resize := fun i _ => i
    average_hash := fun i => i.data }

/-- Fixture: a base configuration with 1×1 target output. -/
def cfgBase : Config :=
  { width := 1, height := 1, dedupe_input := false, crops := 1,
    scale_min := 1/2, scale_max := 1, autocontrast := 0,
    cutoff_min := 0, cutoff_max := 1, randomize := false,
    format := "jpg", jpg_quality := 100, output_dir := "out" }

/-- Fixture for the C4 counterexample: portrait 1×3 target. -/
def cfgC4 : Config := { cfgBase with height := 3 }

/-- Fixture: square 2×2 target. -/
def cfgSquare : Config := { cfgBase with width := 2, height := 2 }

/-- Fixture: global dedup enabled. -/
def cfgDedup : Config := { cfgBase with dedupe_input := true }

/-- Fixture: two crops per image. -/
def cfgCrops2 : Config := { cfgBase with crops := 2 }

/-- Fixture: randomized filename mode. -/
def cfgRandomized : Config := { cfgBase with randomize := true }

/-- Fixture: the initial run state. -/
def sEmpty : RState := { images_collected := 0, images_duplicated := 0, hashes := [] }

/-- Fixture: a run state whose global index already holds fingerprint 0. -/
def sHash0 : RState := { images_collected := 0, images_duplicated := 0, hashes := [0] }

theorem pyRound_ge (q : ℚ) : q - 1/2 ≤ (pyRound q : ℚ) := by
  have h1 := Int.floor_le q
  have h2 := Int.lt_floor_add_one q
  unfold pyRound
  split_ifs with a b c
  · linarith
  · push_cast
    linarith
  · linarith
  · push_cast
    linarith

theorem pyRound_le (q : ℚ) : (pyRound q : ℚ) ≤ q + 1/2 := by
  have h1 := Int.floor_le q
  have h2 := Int.lt_floor_add_one q
  unfold pyRound
  split_ifs with a b c
  · linarith
  · have a2 : 1/2 ≤ q - ⌊q⌋ := not_lt.mp a
    push_cast
    linarith
  · linarith
  · have b2 : q - ⌊q⌋ ≤ 1/2 := not_lt.mp b
    push_cast
    linarith

theorem le_pyRound_of_lt (n : ℤ) (q : ℚ) (h : (n : ℚ) - 1/2 < q) : n ≤ pyRound q := by
  have h1 := pyRound_ge q
  have h2 : (n : ℚ) < (pyRound q : ℚ) + 1 := by linarith
  have h3 : n < pyRound q + 1 := by exact_mod_cast h2
  omega

theorem pyRound_le_of_lt (n : ℤ) (q : ℚ) (h : q < (n : ℚ) + 1/2) : pyRound q ≤ n := by
  have h1 := pyRound_le q
  have h2 : (pyRound q : ℚ) < (n : ℚ) + 1 := by linarith
  have h3 : pyRound q < n + 1 := by exact_mod_cast h2
  omega

theorem pyRound_intCast (n : ℤ) : pyRound (n : ℚ) = n := by
  unfold pyRound
  rw [Int.floor_intCast]
  norm_num

theorem natDigitsAux_eq (fuel : ℕ) : ∀ n : ℕ, n ≤ fuel →
    natDigitsAux fuel n = ((Nat.digits 10 n).map Nat.digitChar).reverse := by
  induction fuel with
  | zero =>
    intro n hn
    interval_cases n
    simp [natDigitsAux]
  | succ fuel ih =>
    intro n hn
    match n with
    | 0 => simp [natDigitsAux]
    | m + 1 =>
      have hdiv : (m + 1) / 10 ≤ fuel := by
        have : (m + 1) / 10 < m + 1 := Nat.div_lt_self (Nat.succ_pos m) (by norm_num)
        omega
      rw [natDigitsAux, ih _ hdiv,
        Nat.digits_def' (by norm_num : 1 < 10) (Nat.succ_pos m)]
      simp

theorem natDigits_eq {n : ℕ} (hn : 0 < n) :
    natDigits n = ((Nat.digits 10 n).map Nat.digitChar).reverse := by
  unfold natDigits
  rw [if_neg (by omega : ¬n = 0)]
  exact natDigitsAux_eq n n le_rfl

theorem digitChar_isDigit {d : ℕ} (hd : d < 10) : (Nat.digitChar d).isDigit = true := by
  have h : ∀ x : Fin 10, (Nat.digitChar x.val).isDigit = true := by decide
  exact h ⟨d, hd⟩

theorem charToDigit_digitChar {d : ℕ} (hd : d < 10) : charToDigit (Nat.digitChar d) = d := by
  have h : ∀ x : Fin 10, charToDigit (Nat.digitChar x.val) = x.val := by decide
  exact h ⟨d, hd⟩

theorem natDigits_isDigit (n : ℕ) : ∀ c ∈ natDigits n, c.isDigit = true := by
  by_cases hn : n = 0
  · subst hn
    intro c hc
    simp [natDigits] at hc
    subst hc
    decide
  · rw [natDigits_eq (Nat.pos_of_ne_zero hn)]
    intro c hc
    rw [List.mem_reverse, List.mem_map] at hc
    obtain ⟨d, hd, rfl⟩ := hc
    exact digitChar_isDigit (Nat.digits_lt_base (by norm_num) hd)

theorem digits_from_natDigits {n : ℕ} (hn : 0 < n) :
    ((natDigits n).map charToDigit).reverse = Nat.digits 10 n := by
  rw [natDigits_eq hn, List.map_reverse, List.reverse_reverse, List.map_map]
  conv_rhs => rw [← List.map_id (Nat.digits 10 n)]
  apply List.map_congr_left
  intro d hd
  exact charToDigit_digitChar (Nat.digits_lt_base (by norm_num) hd)

theorem ofDigits_natDigits (n : ℕ) :
    Nat.ofDigits 10 ((natDigits n).map charToDigit).reverse = n := by
  rcases Nat.eq_zero_or_pos n with h | h
  · subst h
    rfl
  · rw [digits_from_natDigits h]
    exact_mod_cast Nat.ofDigits_digits 10 n

theorem natDigits_inj {m n : ℕ} (h : natDigits m = natDigits n) : m = n := by
  have hm := ofDigits_natDigits m
  rw [h, ofDigits_natDigits] at hm
  exact hm.symm

theorem takeWhile_all_append (p : Char → Bool) (l : List Char) (x : Char) (r : List Char)
    (hl : ∀ c ∈ l, p c = true) (hx : p x = false) :
    (l ++ x :: r).takeWhile p = l := by
  induction l with
  | nil => simp [List.takeWhile_cons, hx]
  | cons a t ih =>
    have ha : p a = true := hl a (List.mem_cons_self a t)
    simp only [List.cons_append, List.takeWhile_cons, ha, if_true]
    rw [ih (fun c hc => hl c (List.mem_cons_of_mem a hc))]

/-- The decimal digits of the variant index, followed by a dash, determine
the index: the dash cannot be part of the digit run. -/
theorem natDigits_append_inj {a b : ℕ} {s t : List Char}
    (h : natDigits a ++ '-' :: s = natDigits b ++ '-' :: t) : a = b := by
  have ha := takeWhile_all_append Char.isDigit (natDigits a) '-' s (natDigits_isDigit a)
    (by decide)
  have hb := takeWhile_all_append Char.isDigit (natDigits b) '-' t (natDigits_isDigit b)
    (by decide)
  apply natDigits_inj
  rw [← ha, ← hb, h]

theorem natStr_data (n : ℕ) : (natStr n).data = natDigits n := rfl

/-- Distinct variant indices give distinct output filenames (in both naming
modes the index digits are followed by a dash). -/
theorem outfile_inj (cfg : Config) (stem : String) {n1 n2 : ℕ} {c1 c2 : Option ℚ}
    (h : outfile cfg stem n1 c1 = outfile cfg stem n2 c2) : n1 = n2 := by
  have hd := congrArg String.data h
  unfold outfile at hd
  have hslash : "/".data = ['/'] := rfl
  have hdash : "-".data = ['-'] := rfl
  have hac : "--ac".data = ['-', '-', 'a', 'c'] := rfl
  have hdot : ".".data = ['.'] := rfl
  cases hcr : cfg.randomize
  · simp only [hcr, Bool.false_eq_true, if_false, String.data_append, natStr_data,
      hslash, hdash, hac, hdot, List.append_assoc, List.cons_append, List.nil_append] at hd
    have h1 := List.append_cancel_left hd
    injection h1 with _ h2
    have h3 := List.append_cancel_left h2
    injection h3 with _ h4
    exact natDigits_append_inj h4
  · simp only [hcr, if_true, String.data_append, natStr_data,
      hslash, hdash, hac, hdot, List.append_assoc, List.cons_append, List.nil_append] at hd
    have h1 := List.append_cancel_left hd
    injection h1 with _ h2
    exact natDigits_append_inj h2

theorem gen_variant_fst (cfg : Config) (ops : PixelOps) (stem : String) (img : Image)
    (wmax : ℤ × ℤ) (n : ℕ) (r : CropRand) :
    (gen_variant cfg ops stem img wmax n r).1 = outfile cfg stem n (cutoffDrawn cfg r) := rfl

theorem dictInsert_of_not_mem (k : String) (v : Image) :
    ∀ d : List (String × Image), k ∉ d.map Prod.fst → dictInsert k v d = d ++ [(k, v)] := by
  intro d
  induction d with
  | nil => intro _; rfl
  | cons p rest ih =>
    intro hk
    simp only [List.map_cons, List.mem_cons] at hk
    push_neg at hk
    rw [dictInsert, if_neg (fun he => hk.1 he.symm), ih hk.2]
    rfl

theorem foldl_dictInsert_eq (g : ℕ → String × Image) :
    ∀ (L : List ℕ) (d : List (String × Image)),
      L.Pairwise (fun a b => (g a).1 ≠ (g b).1) →
      (∀ n ∈ L, (g n).1 ∉ d.map Prod.fst) →
      L.foldl (fun acc n => dictInsert (g n).1 (g n).2 acc) d = d ++ L.map g := by
  intro L
  induction L with
  | nil =>
    intro d _ _
    simp
  | cons n0 rest ih =>
    intro d hpw hd
    rw [List.pairwise_cons] at hpw
    rw [List.foldl_cons, dictInsert_of_not_mem _ _ d (hd n0 (List.mem_cons_self n0 rest))]
    rw [ih (d ++ [g n0]) hpw.2 ?_]
    · simp
    · intro n hn hmem
      rw [List.map_append] at hmem
      rcases List.mem_append.mp hmem with hin | hin
      · exact hd n (List.mem_cons_of_mem n0 hn) hin
      · have he : (g n).1 = (g n0).1 := by simpa using hin
        exact hpw.1 n hn he.symm

theorem gen_variants_eq (cfg : Config) (ops : PixelOps) (stem : String) (img : Image)
    (wmax : ℤ × ℤ) (rand : ℕ → CropRand) :
    gen_variants cfg ops stem img wmax rand =
      (List.range' 1 cfg.crops).map
        (fun n => gen_variant cfg ops stem img wmax n (rand n)) := by
  unfold gen_variants
  have hpw : (List.range' 1 cfg.crops).Pairwise
      (fun a b => (gen_variant cfg ops stem img wmax a (rand a)).1 ≠
        (gen_variant cfg ops stem img wmax b (rand b)).1) := by
    have hnd : (List.range' 1 cfg.crops).Nodup := List.nodup_range' 1 cfg.crops
    refine hnd.imp ?_
    intro a b hab he
    rw [gen_variant_fst, gen_variant_fst] at he
    exact hab (outfile_inj cfg stem he)
  have h := foldl_dictInsert_eq
    (fun n => gen_variant cfg ops stem img wmax n (rand n))
    (List.range' 1 cfg.crops) [] hpw (by intro n _ hmem; simp at hmem)
  simpa using h

theorem gen_variants_length (cfg : Config) (ops : PixelOps) (stem : String) (img : Image)
    (wmax : ℤ × ℤ) (rand : ℕ → CropRand) :
    (gen_variants cfg ops stem img wmax rand).length = cfg.crops := by
  rw [gen_variants_eq]
  simp

theorem gen_variants_names_nodup (cfg : Config) (ops : PixelOps) (stem : String)
    (img : Image) (wmax : ℤ × ℤ) (rand : ℕ → CropRand) :
    ((gen_variants cfg ops stem img wmax rand).map Prod.fst).Nodup := by
  rw [gen_variants_eq, List.map_map]
  apply List.Nodup.map_on
  · intro x _ y _ hxy
    simp only [Function.comp_apply, gen_variant_fst] at hxy
    exact outfile_inj cfg stem hxy
  · exact List.nodup_range' 1 cfg.crops

theorem save_variants_nil (f : Image → ℕ) (seen : List ℕ) :
    save_variants f [] seen = ([], 0) := rfl

theorem save_variants_cons (f : Image → ℕ) (p : String × Image)
    (rest : List (String × Image)) (seen : List ℕ) :
    save_variants f (p :: rest) seen =
      if f p.2 ∈ seen then save_variants f rest seen
      else (p.1 :: (save_variants f rest (seen ++ [f p.2])).1,
            (save_variants f rest (seen ++ [f p.2])).2 + 1) := rfl

theorem save_variants_names_sub (f : Image → ℕ) :
    ∀ (vs : List (String × Image)) (seen : List ℕ) (x : String),
      x ∈ (save_variants f vs seen).1 → x ∈ vs.map Prod.fst := by
  intro vs
  induction vs with
  | nil =>
    intro seen x hx
    rw [save_variants_nil] at hx
    simp at hx
  | cons p rest ih =>
    intro seen x hx
    rw [save_variants_cons] at hx
    by_cases hp : f p.2 ∈ seen
    · rw [if_pos hp] at hx
      exact List.mem_cons_of_mem _ (ih seen x hx)
    · rw [if_neg hp] at hx
      rcases List.mem_cons.mp hx with h | h
      · rw [List.map_cons, h]
        exact List.mem_cons_self _ _
      · exact List.mem_cons_of_mem _ (ih _ x h)

/-- The count returned by the save loop is the number of fingerprints of the
variant list that are not in `seen`. -/
theorem save_variants_count (f : Image → ℕ) :
    ∀ (vs : List (String × Image)) (seen : List ℕ),
      (save_variants f vs seen).2 =
        ((vs.map fun p => f p.2).toFinset \ seen.toFinset).card := by
  intro vs
  induction vs with
  | nil =>
    intro seen
    rw [save_variants_nil]
    simp
  | cons p rest ih =>
    intro seen
    rw [save_variants_cons]
    by_cases hp : f p.2 ∈ seen
    · rw [if_pos hp, ih, List.map_cons, List.toFinset_cons,
        Finset.insert_sdiff_of_mem _ (List.mem_toFinset.mpr hp)]
    · rw [if_neg hp]
      have hseen : (seen ++ [f p.2]).toFinset = insert (f p.2) seen.toFinset := by
        rw [List.toFinset_append]
        rw [show ([f p.2].toFinset : Finset ℕ) = {f p.2} from rfl]
        rw [Finset.union_comm, ← Finset.insert_eq]
      simp only [ih, hseen, List.map_cons, List.toFinset_cons]
      rw [Finset.insert_sdiff_of_not_mem _ (fun hmem => hp (List.mem_toFinset.mp hmem)),
        Finset.sdiff_insert]
      by_cases hm : f p.2 ∈ (rest.map fun p => f p.2).toFinset \ seen.toFinset
      · have h1 := Finset.card_erase_of_mem hm
        have h2 : 0 < ((rest.map fun p => f p.2).toFinset \ seen.toFinset).card :=
          Finset.card_pos.mpr ⟨_, hm⟩
        rw [Finset.card_insert_of_mem hm, h1]
        omega
      · rw [Finset.card_insert_of_not_mem hm, Finset.erase_eq_of_not_mem hm]

/-- A variant's filename is written by the save loop exactly when its
fingerprint is new: not in the initial `seen` list and different from every
earlier variant's fingerprint. -/
theorem save_variants_mem (f : Image → ℕ) :
    ∀ (vs : List (String × Image)) (seen : List ℕ), (vs.map Prod.fst).Nodup →
      ∀ i (hi : i < vs.length),
        ((vs.get ⟨i, hi⟩).1 ∈ (save_variants f vs seen).1 ↔
          (f (vs.get ⟨i, hi⟩).2 ∉ seen ∧
           f (vs.get ⟨i, hi⟩).2 ∉ (vs.take i).map fun p => f p.2)) := by
  intro vs
  induction vs with
  | nil =>
    intro seen _ i hi
    exact absurd hi (by simp)
  | cons p rest ih =>
    intro seen hnd i hi
    rw [List.map_cons, List.nodup_cons] at hnd
    obtain ⟨hp1, hnd2⟩ := hnd
    rw [save_variants_cons]
    cases i with
    | zero =>
      simp only [List.get_cons_zero, List.take_zero, List.map_nil, List.not_mem_nil,
        not_false_eq_true, and_true]
      by_cases hp : f p.2 ∈ seen
      · rw [if_pos hp]
        constructor
        · intro hmem
          exact absurd (save_variants_names_sub f rest seen p.1 hmem) hp1
        · intro hc
          exact absurd hp hc
      · rw [if_neg hp]
        constructor
        · intro _
          exact hp
        · intro _
          exact List.mem_cons_self _ _
    | succ j =>
      have hj : j < rest.length := by
        simpa using hi
      have hget : ((p :: rest).get ⟨j + 1, hi⟩) = rest.get ⟨j, hj⟩ := rfl
      have hxmem : (rest.get ⟨j, hj⟩).1 ∈ rest.map Prod.fst :=
        List.mem_map_of_mem Prod.fst (rest.get_mem j hj)
      rw [hget, List.take_succ_cons, List.map_cons]
      by_cases hp : f p.2 ∈ seen
      · rw [if_pos hp, ih seen hnd2 j hj]
        constructor
        · rintro ⟨hs, ht⟩
          refine ⟨hs, ?_⟩
          intro hin
          rcases List.mem_cons.mp hin with heq | hin2
          · exact hs (heq ▸ hp)
          · exact ht hin2
        · rintro ⟨hs, ht⟩
          exact ⟨hs, fun hin => ht (List.mem_cons_of_mem _ hin)⟩
      · rw [if_neg hp]
        have hx_ne : (rest.get ⟨j, hj⟩).1 ≠ p.1 := by
          intro he
          rw [he] at hxmem
          exact hp1 hxmem
        constructor
        · intro hmem
          rcases List.mem_cons.mp hmem with he | hm
          · exact absurd he hx_ne
          · have h2 := (ih (seen ++ [f p.2]) hnd2 j hj).mp hm
            refine ⟨fun hs => h2.1 (List.mem_append_left _ hs), ?_⟩
            intro hin
            rcases List.mem_cons.mp hin with heq | hin2
            · exact h2.1 (List.mem_append_right _ (List.mem_singleton.mpr heq))
            · exact h2.2 hin2
        · rintro ⟨hs, ht⟩
          apply List.mem_cons_of_mem
          apply (ih (seen ++ [f p.2]) hnd2 j hj).mpr
          constructor
          · intro hin
            rcases List.mem_append.mp hin with h1 | h1
            · exact hs h1
            · have heq : f (rest.get ⟨j, hj⟩).2 = f p.2 := by
                simpa using h1
              exact ht (by rw [heq]; exact List.mem_cons_self _ _)
          · intro hin
            exact ht (List.mem_cons_of_mem _ hin)

theorem process_image_error (cfg : Config) (ops : PixelOps) (file : String)
    (rand : ℕ → CropRand) (s : RState) (h : ops.load file = none) :
    process_image cfg ops file rand s = (Outcome.error, s, []) := by
  unfold process_image
  rw [h]

theorem process_image_skip (cfg : Config) (ops : PixelOps) (file : String)
    (rand : ℕ → CropRand) (s : RState) (img : Image) (h : ops.load file = some img)
    (hs : img.width < cfg.width ∨ img.height < cfg.height) :
    process_image cfg ops file rand s = (Outcome.skipped, s, []) := by
  unfold process_image
  rw [h]
  simp only [if_pos hs]

theorem process_image_dup (cfg : Config) (ops : PixelOps) (file : String)
    (rand : ℕ → CropRand) (s : RState) (img : Image) (h : ops.load file = some img)
    (hs : ¬(img.width < cfg.width ∨ img.height < cfg.height))
    (hd : cfg.dedupe_input = true ∧ ops.average_hash img ∈ s.hashes) :
    process_image cfg ops file rand s =
      (Outcome.duplicate, { s with images_duplicated := s.images_duplicated + 1 }, []) := by
  unfold process_image
  rw [h]
  simp only [if_neg hs, if_pos hd]

theorem process_image_generate (cfg : Config) (ops : PixelOps) (file : String)
    (rand : ℕ → CropRand) (s : RState) (img : Image) (h : ops.load file = some img)
    (hs : ¬(img.width < cfg.width ∨ img.height < cfg.height))
    (hd : ¬(cfg.dedupe_input = true ∧ ops.average_hash img ∈ s.hashes)) :
    process_image cfg ops file rand s =
      (Outcome.ok (save_variants ops.average_hash
          (gen_variants cfg ops (stemOf file) img
            (window_of cfg img.width img.height) rand) []).2,
       ⟨s.images_collected + (save_variants ops.average_hash
          (gen_variants cfg ops (stemOf file) img
            (window_of cfg img.width img.height) rand) []).2,
        s.images_duplicated,
        if cfg.dedupe_input then s.hashes ++ [ops.average_hash img] else s.hashes⟩,
       (save_variants ops.average_hash
          (gen_variants cfg ops (stemOf file) img
            (window_of cfg img.width img.height) rand) []).1) := by
  unfold process_image
  rw [h]
  simp only [if_neg hs, if_neg hd]
  cases hded : cfg.dedupe_input <;> simp [hded]

/-- C1: Window Sizer correctness.  For positive source dimensions `w, h` and
positive target ratio `r`, `get_max_window_size` returns `(ww, wh)` with
`ww ≤ w`, `wh ≤ h`, `ww/wh` within rounding tolerance of `r` (formalised as
`|ww - r * wh| ≤ max r 1 / 2`, half a pixel of rounding slack), and when
`r = w / h` exactly it returns `(w, h)` unchanged. -/
theorem c1_window_sizer (w h : ℕ) (r : ℚ) (hw : 0 < w) (hh : 0 < h) (hr : 0 < r) :
    (get_max_window_size w h r).1 ≤ (w : ℤ) ∧
    (get_max_window_size w h r).2 ≤ (h : ℤ) ∧
    |((get_max_window_size w h r).1 : ℚ) - r * ((get_max_window_size w h r).2 : ℚ)| ≤
      max r 1 / 2 ∧
    (r = (w : ℚ) / (h : ℚ) → get_max_window_size w h r = ((w : ℤ), (h : ℤ))) := by
  have hhq : (0 : ℚ) < (h : ℚ) := by exact_mod_cast hh
  have hwq : (0 : ℚ) < (w : ℚ) := by exact_mod_cast hw
  have hmax1 : (1 : ℚ) ≤ max r 1 := le_max_right r 1
  have hmaxr : r ≤ max r 1 := le_max_left r 1
  by_cases heq : r = (w : ℚ) / (h : ℚ)
  · unfold get_max_window_size
    rw [if_pos heq]
    refine ⟨le_refl _, le_refl _, ?_, fun _ => rfl⟩
    have : ((w : ℤ) : ℚ) - r * ((h : ℤ) : ℚ) = 0 := by
      push_cast
      rw [heq]
      field_simp
    rw [this]
    simp only [abs_zero]
    positivity
  · by_cases hlt : (w : ℚ) / (h : ℚ) < r
    · -- width-constrained: (w, pyRound (w / r))
      unfold get_max_window_size
      rw [if_neg heq, if_pos hlt]
      have hq : (w : ℚ) / r < (h : ℚ) := by
        rw [div_lt_iff hr]
        rw [div_lt_iff hhq] at hlt
        linarith
      have hub := pyRound_le ((w : ℚ) / r)
      have hlb := pyRound_ge ((w : ℚ) / r)
      have hcancel : r * ((w : ℚ) / r) = (w : ℚ) := mul_div_cancel₀ _ (ne_of_gt hr)
      refine ⟨le_refl _, ?_, ?_, fun hc => absurd hc heq⟩
      · exact pyRound_le_of_lt h _ (by push_cast; linarith)
      · have hA : r * (pyRound ((w : ℚ) / r) : ℚ) ≤ (w : ℚ) + r / 2 := by
          have := mul_le_mul_of_nonneg_left hub (le_of_lt hr)
          calc r * (pyRound ((w : ℚ) / r) : ℚ) ≤ r * ((w : ℚ) / r + 1/2) := this
            _ = (w : ℚ) + r / 2 := by rw [mul_add, hcancel]; ring
        have hB : (w : ℚ) - r / 2 ≤ r * (pyRound ((w : ℚ) / r) : ℚ) := by
          have := mul_le_mul_of_nonneg_left hlb (le_of_lt hr)
          calc (w : ℚ) - r / 2 = r * ((w : ℚ) / r - 1/2) := by rw [mul_sub, hcancel]; ring
            _ ≤ r * (pyRound ((w : ℚ) / r) : ℚ) := this
        rw [abs_le]
        constructor
        · push_cast
          linarith
        · push_cast
          linarith
    · -- height-constrained: (pyRound (h * r), h)
      have hgt : r < (w : ℚ) / (h : ℚ) := lt_of_le_of_ne (not_lt.mp hlt) heq
      unfold get_max_window_size
      rw [if_neg heq, if_neg hlt]
      have hq : (h : ℚ) * r < (w : ℚ) := by
        rw [lt_div_iff hhq] at hgt
        linarith
      have hub := pyRound_le ((h : ℚ) * r)
      have hlb := pyRound_ge ((h : ℚ) * r)
      refine ⟨?_, le_refl _, ?_, fun hc => absurd hc heq⟩
      · exact pyRound_le_of_lt w _ (by push_cast; linarith)
      · rw [abs_le]
        constructor
        · push_cast
          linarith
        · push_cast
          linarith

theorem uniform_bounds (a b t : ℚ) (hab : a ≤ b) (ht0 : 0 ≤ t) (ht1 : t ≤ 1) :
    a ≤ uniform a b t ∧ uniform a b t ≤ b := by
  unfold uniform
  constructor
  · nlinarith
  · nlinarith

/-- Under the size check (`W ≤ w`, `H ≤ h`) the window returned for the
target ratio `W / H` has positive sides, and when the target is at least as
wide as tall the window satisfies `(2H - 1) * ww < 2W * wh`, the inequality
behind the effective scale floor. -/
theorem window_bounds (W H w h : ℕ) (hW : 0 < W) (hH : 0 < H)
    (hw : W ≤ w) (hh : H ≤ h) :
    1 ≤ (get_max_window_size w h ((W : ℚ) / (H : ℚ))).1 ∧
    1 ≤ (get_max_window_size w h ((W : ℚ) / (H : ℚ))).2 ∧
    (H ≤ W →
      (2 * (H : ℚ) - 1) * ((get_max_window_size w h ((W : ℚ) / (H : ℚ))).1 : ℚ) <
        2 * (W : ℚ) * ((get_max_window_size w h ((W : ℚ) / (H : ℚ))).2 : ℚ)) := by
  have hW0 : (0 : ℚ) < (W : ℚ) := by exact_mod_cast hW
  have hH0 : (0 : ℚ) < (H : ℚ) := by exact_mod_cast hH
  have hw1 : 0 < w := lt_of_lt_of_le hW hw
  have hh1 : 0 < h := lt_of_lt_of_le hH hh
  have hw0 : (0 : ℚ) < (w : ℚ) := by exact_mod_cast hw1
  have hh0 : (0 : ℚ) < (h : ℚ) := by exact_mod_cast hh1
  have hwq : (W : ℚ) ≤ (w : ℚ) := by exact_mod_cast hw
  have hhq : (H : ℚ) ≤ (h : ℚ) := by exact_mod_cast hh
  unfold get_max_window_size
  by_cases heq : (W : ℚ) / (H : ℚ) = (w : ℚ) / (h : ℚ)
  · rw [if_pos heq]
    have hcross : (W : ℚ) * (h : ℚ) = (w : ℚ) * (H : ℚ) :=
      (div_eq_div_iff (ne_of_gt hH0) (ne_of_gt hh0)).mp heq
    dsimp only
    refine ⟨by exact_mod_cast hw1, by exact_mod_cast hh1, fun _ => ?_⟩
    push_cast
    nlinarith
  · by_cases hlt : (w : ℚ) / (h : ℚ) < (W : ℚ) / (H : ℚ)
    · -- width-constrained branch
      rw [if_neg heq, if_pos hlt]
      dsimp only
      have hdd : (w : ℚ) / ((W : ℚ) / (H : ℚ)) = (w : ℚ) * (H : ℚ) / (W : ℚ) := by
        field_simp
      have hge : (H : ℚ) ≤ (w : ℚ) * (H : ℚ) / (W : ℚ) := by
        rw [le_div_iff hW0]
        nlinarith
      have h1le : (1 : ℤ) ≤ pyRound ((w : ℚ) / ((W : ℚ) / (H : ℚ))) := by
        apply le_pyRound_of_lt
        rw [hdd]
        push_cast
        have : (1 : ℚ) ≤ (H : ℚ) := by exact_mod_cast hH
        linarith
      refine ⟨by exact_mod_cast hw1, h1le, fun _ => ?_⟩
      have hpr := pyRound_ge ((w : ℚ) / ((W : ℚ) / (H : ℚ)))
      rw [hdd] at hpr
      rcases eq_or_lt_of_le hwq with hWw | hWw
      · -- w = W: the window height is exactly H
        have hint : (w : ℚ) * (H : ℚ) / (W : ℚ) = ((H : ℤ) : ℚ) := by
          rw [← hWw]
          push_cast
          field_simp
        have : pyRound ((w : ℚ) / ((W : ℚ) / (H : ℚ))) = (H : ℤ) := by
          rw [hdd, hint, pyRound_intCast]
        rw [this]
        push_cast
        nlinarith
      · -- W < w: the floor bound on pyRound suffices
        have hbound : 2 * (W : ℚ) * ((w : ℚ) * (H : ℚ) / (W : ℚ) - 1/2) =
            2 * (w : ℚ) * (H : ℚ) - (W : ℚ) := by
          field_simp
          ring
        have hmul := mul_le_mul_of_nonneg_left hpr (by positivity : (0 : ℚ) ≤ 2 * (W : ℚ))
        rw [hbound] at hmul
        rw [hdd]
        push_cast
        nlinarith
    · -- height-constrained branch
      have hgt : (W : ℚ) / (H : ℚ) < (w : ℚ) / (h : ℚ) :=
        lt_of_le_of_ne (not_lt.mp hlt) heq
      rw [if_neg heq, if_neg hlt]
      dsimp only
      have hmm : (h : ℚ) * ((W : ℚ) / (H : ℚ)) = (h : ℚ) * (W : ℚ) / (H : ℚ) := by
        ring
      have hge : (W : ℚ) ≤ (h : ℚ) * (W : ℚ) / (H : ℚ) := by
        rw [le_div_iff hH0]
        nlinarith
      have h1le : (1 : ℤ) ≤ pyRound ((h : ℚ) * ((W : ℚ) / (H : ℚ))) := by
        apply le_pyRound_of_lt
        rw [hmm]
        push_cast
        have : (1 : ℚ) ≤ (W : ℚ) := by exact_mod_cast hW
        linarith
      refine ⟨h1le, by exact_mod_cast hh1, fun hHW => ?_⟩
      have hHWq : (H : ℚ) ≤ (W : ℚ) := by exact_mod_cast hHW
      have hpr := pyRound_le ((h : ℚ) * ((W : ℚ) / (H : ℚ)))
      rw [hmm] at hpr
      have h2H : (0 : ℚ) ≤ 2 * (H : ℚ) - 1 := by
        have : (1 : ℚ) ≤ (H : ℚ) := by exact_mod_cast hH
        linarith
      have hmul := mul_le_mul_of_nonneg_left hpr h2H
      have hx : (H : ℚ) * ((h : ℚ) * (W : ℚ) / (H : ℚ)) = (h : ℚ) * (W : ℚ) := by
        field_simp
      have hxW : (W : ℚ) ≤ (h : ℚ) * (W : ℚ) / (H : ℚ) := hge
      rw [hmm]
      push_cast
      nlinarith [hmul, hx, hxW, hHWq, hH0]

/-- Witness for C1 at `w = 4`, `h = 2`, `r = 3`. -/
theorem c1_window_sizer_witness :
    (get_max_window_size 4 2 3).1 ≤ ((4 : ℕ) : ℤ) ∧
    (get_max_window_size 4 2 3).2 ≤ ((2 : ℕ) : ℤ) ∧
    |((get_max_window_size 4 2 3).1 : ℚ) - 3 * ((get_max_window_size 4 2 3).2 : ℚ)| ≤
      max 3 1 / 2 ∧
    ((3 : ℚ) = ((4 : ℕ) : ℚ) / ((2 : ℕ) : ℚ) →
      get_max_window_size 4 2 3 = (((4 : ℕ) : ℤ), ((2 : ℕ) : ℤ))) :=
  c1_window_sizer 4 2 3 (by decide) (by decide) (by decide)

/-- C4 (counterexample): with target 1×3, source 2×5, `scale_min = 1/2` and
the lowest admissible scale draw, the scale range is valid and the source
passes the size check, yet the crop height is 2 < 3: the crop rectangle is
smaller than the target before the final resize, against the claim. -/
theorem c4_counterexample :
    cfgC4.width ≤ 2 ∧ cfgC4.height ≤ 5 ∧
    max ((cfgC4.width : ℚ) / ((window_of cfgC4 2 5).1 : ℚ)) cfgC4.scale_min ≤
      cfgC4.scale_max ∧
    0 ≤ rand0.scaleT ∧ rand0.scaleT ≤ 1 ∧
    (crop_dims (window_of cfgC4 2 5)
      (scaleDrawn cfgC4 (window_of cfgC4 2 5) rand0)).2 < (cfgC4.height : ℤ) := by
  have hwin : window_of cfgC4 2 5 = (2, 5) := by
    norm_num [window_of, get_max_window_size, cfgC4, cfgBase, pyRound]
  have hscale : scaleDrawn cfgC4 (2, 5) rand0 = 1/2 := by
    norm_num [scaleDrawn, uniform, cfgC4, cfgBase, rand0]
  have hdims : crop_dims (2, 5) ((1 : ℚ)/2) = (1, 2) := by
    norm_num [crop_dims, pyRound]
  rw [hwin, hscale, hdims]
  norm_num [cfgC4, cfgBase, rand0]

/-- C4 (amended): for every generated crop, under a valid scale range
(`scaleMinEff ≤ scaleMax` with `scaleMinEff = max (W / ww) scaleMin`) and a
uniform scale draw inside it, the crop width is at least the target width;
and whenever the target is at least as wide as tall (`H ≤ W`) the crop
height is also at least the target height.  (For portrait targets the crop
height can fall one pixel short by rounding — see the counterexample.) -/
theorem c4_scale_floor (cfg : Config) (w h : ℕ) (r : CropRand)
    (hW : 0 < cfg.width) (hH : 0 < cfg.height)
    (hw : cfg.width ≤ w) (hh : cfg.height ≤ h)
    (ht0 : 0 ≤ r.scaleT) (ht1 : r.scaleT ≤ 1)
    (hvalid : max ((cfg.width : ℚ) / ((window_of cfg w h).1 : ℚ)) cfg.scale_min ≤
      cfg.scale_max) :
    (cfg.width : ℤ) ≤
      (crop_dims (window_of cfg w h) (scaleDrawn cfg (window_of cfg w h) r)).1 ∧
    (cfg.height ≤ cfg.width →
      (cfg.height : ℤ) ≤
        (crop_dims (window_of cfg w h) (scaleDrawn cfg (window_of cfg w h) r)).2) := by
  obtain ⟨h1, h2, h3⟩ := window_bounds cfg.width cfg.height w h hW hH hw hh
  have hpeq : get_max_window_size w h ((cfg.width : ℚ) / (cfg.height : ℚ)) =
      window_of cfg w h := rfl
  rw [hpeq] at h1 h2 h3
  have hww0 : (0 : ℚ) < ((window_of cfg w h).1 : ℚ) := by
    have hz : (0 : ℤ) < (window_of cfg w h).1 := lt_of_lt_of_le one_pos h1
    exact_mod_cast hz
  have hwh0 : (0 : ℚ) ≤ ((window_of cfg w h).2 : ℚ) := by
    have hz : (0 : ℤ) < (window_of cfg w h).2 := lt_of_lt_of_le one_pos h2
    exact_mod_cast le_of_lt hz
  have hlo : (cfg.width : ℚ) / ((window_of cfg w h).1 : ℚ) ≤
      scaleDrawn cfg (window_of cfg w h) r := by
    unfold scaleDrawn
    have hu := (uniform_bounds _ _ _ hvalid ht0 ht1).1
    exact le_trans (le_max_left _ _) hu
  constructor
  · show (cfg.width : ℤ) ≤
      pyRound (scaleDrawn cfg (window_of cfg w h) r * ((window_of cfg w h).1 : ℚ))
    apply le_pyRound_of_lt
    have h4 := mul_le_mul_of_nonneg_right hlo (le_of_lt hww0)
    rw [div_mul_cancel₀ _ (ne_of_gt hww0)] at h4
    push_cast
    linarith
  · intro hHW
    show (cfg.height : ℤ) ≤
      pyRound (scaleDrawn cfg (window_of cfg w h) r * ((window_of cfg w h).2 : ℚ))
    apply le_pyRound_of_lt
    have hk := h3 hHW
    have h5 := mul_le_mul_of_nonneg_right hlo hwh0
    have h6 : (cfg.height : ℚ) - 1/2 <
        (cfg.width : ℚ) / ((window_of cfg w h).1 : ℚ) * ((window_of cfg w h).2 : ℚ) := by
      rw [div_mul_eq_mul_div, lt_div_iff hww0]
      nlinarith [hk]
    push_cast
    push_cast at h5 h6
    linarith

/-- C7: a successfully decoded source image smaller than the target in
either dimension terminates as SKIPPED before any dedup check: the state
(both counters and the global fingerprint index) is unchanged and no file
is written. -/
theorem c7_undersized_skip (cfg : Config) (ops : PixelOps) (file : String)
    (rand : ℕ → CropRand) (s : RState) (img : Image)
    (hl : ops.load file = some img)
    (hs : img.width < cfg.width ∨ img.height < cfg.height) :
    process_image cfg ops file rand s = (Outcome.skipped, s, []) :=
  process_image_skip cfg ops file rand s img hl hs

/-- Witness for C7: a 0×5 image against the 1×1 target, with dedup enabled
and the image's fingerprint already in the index — still SKIPPED, index and
counters untouched. -/
theorem c7_undersized_skip_witness :
    process_image cfgDedup (opsConst (imgOf 0 5 0)) "a.jpg" (fun _ => rand0) sHash0 =
      (Outcome.skipped, sHash0, []) :=
  c7_undersized_skip cfgDedup (opsConst (imgOf 0 5 0)) "a.jpg" (fun _ => rand0) sHash0
    (imgOf 0 5 0) rfl (by decide)

theorem process_all_cons (cfg : Config) (ops : PixelOps) (rand : ℕ → ℕ → CropRand)
    (f : String) (rest : List String) (i : ℕ) (s : RState) :
    process_all cfg ops rand (f :: rest) i s =
      ((process_image cfg ops f (rand i) s).1 ::
        (process_all cfg ops rand rest (i + 1) (process_image cfg ops f (rand i) s).2.1).1,
       (process_all cfg ops rand rest (i + 1) (process_image cfg ops f (rand i) s).2.1).2.1,
       (process_image cfg ops f (rand i) s).2.2 ++
        (process_all cfg ops rand rest (i + 1) (process_image cfg ops f (rand i) s).2.1).2.2) :=
  rfl

/-- C6: a file whose decode fails terminates as ERROR with no file written,
no counter changed and no fingerprint inserted; the run continues with the
remaining files from the unchanged state. -/
theorem c6_decode_error (cfg : Config) (ops : PixelOps) (file : String)
    (rand : ℕ → ℕ → CropRand) (i : ℕ) (rest : List String) (s : RState)
    (hl : ops.load file = none) :
    process_image cfg ops file (rand i) s = (Outcome.error, s, []) ∧
    process_all cfg ops rand (file :: rest) i s =
      (Outcome.error :: (process_all cfg ops rand rest (i + 1) s).1,
       (process_all cfg ops rand rest (i + 1) s).2.1,
       (process_all cfg ops rand rest (i + 1) s).2.2) := by
  have he := process_image_error cfg ops file (rand i) s hl
  refine ⟨he, ?_⟩
  rw [process_all_cons, he]
  dsimp only
  rw [List.nil_append]

/-- Witness for C6: a failing decoder on `bad.jpg` with one more file in
the queue. -/
theorem c6_decode_error_witness :
    process_image cfgBase opsFail "bad.jpg" ((fun _ _ => rand0) 0) sEmpty =
      (Outcome.error, sEmpty, []) ∧
    process_all cfgBase opsFail (fun _ _ => rand0) ("bad.jpg" :: ["b.jpg"]) 0 sEmpty =
      (Outcome.error ::
        (process_all cfgBase opsFail (fun _ _ => rand0) ["b.jpg"] (0 + 1) sEmpty).1,
       (process_all cfgBase opsFail (fun _ _ => rand0) ["b.jpg"] (0 + 1) sEmpty).2.1,
       (process_all cfgBase opsFail (fun _ _ => rand0) ["b.jpg"] (0 + 1) sEmpty).2.2) :=
  c6_decode_error cfgBase opsFail "bad.jpg" (fun _ _ => rand0) 0 ["b.jpg"] sEmpty rfl

/-- C2: with global dedup enabled, processing the same decoded image twice
in sequence (fresh fingerprint at the start): the first pass reaches the
Generate step — its outcome is OK and its fingerprint is inserted into the
global index — and the second pass terminates as DUPLICATE, incrementing
`images_duplicated` by exactly one and writing no file. -/
theorem c2_global_dedup (cfg : Config) (ops : PixelOps) (f1 f2 : String)
    (rand1 rand2 : ℕ → CropRand) (s : RState) (img : Image)
    (hd : cfg.dedupe_input = true)
    (h1 : ops.load f1 = some img) (h2 : ops.load f2 = some img)
    (hw : cfg.width ≤ img.width) (hh : cfg.height ≤ img.height)
    (hfresh : ops.average_hash img ∉ s.hashes) :
    (∃ k, (process_image cfg ops f1 rand1 s).1 = Outcome.ok k) ∧
    ops.average_hash img ∈ (process_image cfg ops f1 rand1 s).2.1.hashes ∧
    (process_image cfg ops f2 rand2 (process_image cfg ops f1 rand1 s).2.1).1 =
      Outcome.duplicate ∧
    (process_image cfg ops f2 rand2
      (process_image cfg ops f1 rand1 s).2.1).2.1.images_duplicated =
      s.images_duplicated + 1 ∧
    (process_image cfg ops f2 rand2 (process_image cfg ops f1 rand1 s).2.1).2.2 = [] := by
  have hsz : ¬(img.width < cfg.width ∨ img.height < cfg.height) := by
    push_neg
    exact ⟨hw, hh⟩
  have hnd : ¬(cfg.dedupe_input = true ∧ ops.average_hash img ∈ s.hashes) := by
    rintro ⟨_, hmem⟩
    exact hfresh hmem
  rw [process_image_generate cfg ops f1 rand1 s img h1 hsz hnd]
  dsimp only
  rw [if_pos hd]
  have hmem1 : ops.average_hash img ∈ s.hashes ++ [ops.average_hash img] := by
    simp
  have hdup := process_image_dup cfg ops f2 rand2
    ⟨s.images_collected + (save_variants ops.average_hash
        (gen_variants cfg ops (stemOf f1) img
          (window_of cfg img.width img.height) rand1) []).2,
      s.images_duplicated, s.hashes ++ [ops.average_hash img]⟩
    img h2 hsz ⟨hd, hmem1⟩
  rw [hdup]
  exact ⟨⟨_, rfl⟩, hmem1, rfl, rfl, rfl⟩

/-- Witness for C2: the same 1×1 image with fingerprint 7 processed twice
from the empty state with dedup on. -/
theorem c2_global_dedup_witness :
    (∃ k, (process_image cfgDedup (opsConst (imgOf 1 1 7)) "a.jpg"
      (fun _ => rand0) sEmpty).1 = Outcome.ok k) ∧
    (opsConst (imgOf 1 1 7)).average_hash (imgOf 1 1 7) ∈
      (process_image cfgDedup (opsConst (imgOf 1 1 7)) "a.jpg"
        (fun _ => rand0) sEmpty).2.1.hashes ∧
    (process_image cfgDedup (opsConst (imgOf 1 1 7)) "a.jpg" (fun _ => rand0)
      (process_image cfgDedup (opsConst (imgOf 1 1 7)) "a.jpg"
        (fun _ => rand0) sEmpty).2.1).1 = Outcome.duplicate ∧
    (process_image cfgDedup (opsConst (imgOf 1 1 7)) "a.jpg" (fun _ => rand0)
      (process_image cfgDedup (opsConst (imgOf 1 1 7)) "a.jpg"
        (fun _ => rand0) sEmpty).2.1).2.1.images_duplicated =
      sEmpty.images_duplicated + 1 ∧
    (process_image cfgDedup (opsConst (imgOf 1 1 7)) "a.jpg" (fun _ => rand0)
      (process_image cfgDedup (opsConst (imgOf 1 1 7)) "a.jpg"
        (fun _ => rand0) sEmpty).2.1).2.2 = [] :=
  c2_global_dedup cfgDedup (opsConst (imgOf 1 1 7)) "a.jpg" "a.jpg"
    (fun _ => rand0) (fun _ => rand0) sEmpty (imgOf 1 1 7)
    rfl rfl rfl (by decide) (by decide) (by decide)

/-- C3: for a source image reaching the Generate step, the worker persists
between 0 and `crops` variants; the persisted count equals the number of
distinct fingerprints among the `crops` generated variants; and a variant
is persisted exactly when its fingerprint differs from every earlier
generated variant's fingerprint (generation order). -/
theorem c3_variant_cap (cfg : Config) (ops : PixelOps) (file : String)
    (rand : ℕ → CropRand) (s : RState) (img : Image)
    (vs : List (String × Image))
    (hl : ops.load file = some img)
    (hs : ¬(img.width < cfg.width ∨ img.height < cfg.height))
    (hd : ¬(cfg.dedupe_input = true ∧ ops.average_hash img ∈ s.hashes))
    (hvs : vs = gen_variants cfg ops (stemOf file) img
      (window_of cfg img.width img.height) rand) :
    (process_image cfg ops file rand s).1 =
      Outcome.ok (save_variants ops.average_hash vs []).2 ∧
    (process_image cfg ops file rand s).2.2 = (save_variants ops.average_hash vs []).1 ∧
    vs.length = cfg.crops ∧
    (save_variants ops.average_hash vs []).2 ≤ cfg.crops ∧
    (save_variants ops.average_hash vs []).2 =
      ((vs.map fun p => ops.average_hash p.2).dedup).length ∧
    ∀ i (hi : i < vs.length),
      ((vs.get ⟨i, hi⟩).1 ∈ (save_variants ops.average_hash vs []).1 ↔
        ops.average_hash (vs.get ⟨i, hi⟩).2 ∉
          (vs.take i).map fun p => ops.average_hash p.2) := by
  subst hvs
  have hlen := gen_variants_length cfg ops (stemOf file) img
    (window_of cfg img.width img.height) rand
  have hcount := save_variants_count ops.average_hash
    (gen_variants cfg ops (stemOf file) img (window_of cfg img.width img.height) rand) []
  have hdedup : (save_variants ops.average_hash
      (gen_variants cfg ops (stemOf file) img
        (window_of cfg img.width img.height) rand) []).2 =
      (((gen_variants cfg ops (stemOf file) img
        (window_of cfg img.width img.height) rand).map
          fun p => ops.average_hash p.2).dedup).length := by
    rw [hcount]
    simp [List.card_toFinset]
  refine ⟨?_, ?_, hlen, ?_, hdedup, ?_⟩
  · rw [process_image_generate cfg ops file rand s img hl hs hd]
  · rw [process_image_generate cfg ops file rand s img hl hs hd]
  · rw [hdedup, ← hlen]
    calc (((gen_variants cfg ops (stemOf file) img
          (window_of cfg img.width img.height) rand).map
            fun p => ops.average_hash p.2).dedup).length
        ≤ ((gen_variants cfg ops (stemOf file) img
          (window_of cfg img.width img.height) rand).map
            fun p => ops.average_hash p.2).length :=
          (List.dedup_sublist _).length_le
      _ = _ := List.length_map _ _
  · intro i hi
    have h := save_variants_mem ops.average_hash
      (gen_variants cfg ops (stemOf file) img (window_of cfg img.width img.height) rand)
      [] (gen_variants_names_nodup cfg ops (stemOf file) img
        (window_of cfg img.width img.height) rand) i hi
    exact h.trans (and_iff_right (by simp))

/-- Witness for C3 at two crops of the same 1×1 image. -/
theorem c3_variant_cap_witness :
    (process_image cfgCrops2 (opsConst (imgOf 1 1 5)) "a.jpg"
        (fun _ => rand0) sEmpty).1 =
      Outcome.ok (save_variants (opsConst (imgOf 1 1 5)).average_hash
        (gen_variants cfgCrops2 (opsConst (imgOf 1 1 5)) (stemOf "a.jpg") (imgOf 1 1 5)
          (window_of cfgCrops2 (imgOf 1 1 5).width (imgOf 1 1 5).height)
          (fun _ => rand0)) []).2 ∧
    (process_image cfgCrops2 (opsConst (imgOf 1 1 5)) "a.jpg"
        (fun _ => rand0) sEmpty).2.2 =
      (save_variants (opsConst (imgOf 1 1 5)).average_hash
        (gen_variants cfgCrops2 (opsConst (imgOf 1 1 5)) (stemOf "a.jpg") (imgOf 1 1 5)
          (window_of cfgCrops2 (imgOf 1 1 5).width (imgOf 1 1 5).height)
          (fun _ => rand0)) []).1 ∧
    (gen_variants cfgCrops2 (opsConst (imgOf 1 1 5)) (stemOf "a.jpg") (imgOf 1 1 5)
      (window_of cfgCrops2 (imgOf 1 1 5).width (imgOf 1 1 5).height)
      (fun _ => rand0)).length = cfgCrops2.crops ∧
    (save_variants (opsConst (imgOf 1 1 5)).average_hash
      (gen_variants cfgCrops2 (opsConst (imgOf 1 1 5)) (stemOf "a.jpg") (imgOf 1 1 5)
        (window_of cfgCrops2 (imgOf 1 1 5).width (imgOf 1 1 5).height)
        (fun _ => rand0)) []).2 ≤ cfgCrops2.crops ∧
    (save_variants (opsConst (imgOf 1 1 5)).average_hash
      (gen_variants cfgCrops2 (opsConst (imgOf 1 1 5)) (stemOf "a.jpg") (imgOf 1 1 5)
        (window_of cfgCrops2 (imgOf 1 1 5).width (imgOf 1 1 5).height)
        (fun _ => rand0)) []).2 =
      (((gen_variants cfgCrops2 (opsConst (imgOf 1 1 5)) (stemOf "a.jpg") (imgOf 1 1 5)
        (window_of cfgCrops2 (imgOf 1 1 5).width (imgOf 1 1 5).height)
        (fun _ => rand0)).map
          fun p => (opsConst (imgOf 1 1 5)).average_hash p.2).dedup).length ∧
    ∀ i (hi : i < (gen_variants cfgCrops2 (opsConst (imgOf 1 1 5)) (stemOf "a.jpg")
        (imgOf 1 1 5)
        (window_of cfgCrops2 (imgOf 1 1 5).width (imgOf 1 1 5).height)
        (fun _ => rand0)).length),
      (((gen_variants cfgCrops2 (opsConst (imgOf 1 1 5)) (stemOf "a.jpg") (imgOf 1 1 5)
          (window_of cfgCrops2 (imgOf 1 1 5).width (imgOf 1 1 5).height)
          (fun _ => rand0)).get ⟨i, hi⟩).1 ∈
        (save_variants (opsConst (imgOf 1 1 5)).average_hash
          (gen_variants cfgCrops2 (opsConst (imgOf 1 1 5)) (stemOf "a.jpg") (imgOf 1 1 5)
            (window_of cfgCrops2 (imgOf 1 1 5).width (imgOf 1 1 5).height)
            (fun _ => rand0)) []).1 ↔
        (opsConst (imgOf 1 1 5)).average_hash
          ((gen_variants cfgCrops2 (opsConst (imgOf 1 1 5)) (stemOf "a.jpg") (imgOf 1 1 5)
            (window_of cfgCrops2 (imgOf 1 1 5).width (imgOf 1 1 5).height)
            (fun _ => rand0)).get ⟨i, hi⟩).2 ∉
          ((gen_variants cfgCrops2 (opsConst (imgOf 1 1 5)) (stemOf "a.jpg") (imgOf 1 1 5)
            (window_of cfgCrops2 (imgOf 1 1 5).width (imgOf 1 1 5).height)
            (fun _ => rand0)).take i).map
            fun p => (opsConst (imgOf 1 1 5)).average_hash p.2) :=
  c3_variant_cap cfgCrops2 (opsConst (imgOf 1 1 5)) "a.jpg" (fun _ => rand0) sEmpty
    (imgOf 1 1 5) _ rfl (by decide) (by decide) rfl

/-- C9: a source image reaching the Generate step with `crops ≥ 1` always
persists at least one variant — the first variant is always accepted, so
the `OK 0` outcome is unreachable there. -/
theorem c9_at_least_one (cfg : Config) (ops : PixelOps) (file : String)
    (rand : ℕ → CropRand) (s : RState) (img : Image)
    (hl : ops.load file = some img)
    (hs : ¬(img.width < cfg.width ∨ img.height < cfg.height))
    (hd : ¬(cfg.dedupe_input = true ∧ ops.average_hash img ∈ s.hashes))
    (hc : 1 ≤ cfg.crops) :
    ∃ k, (process_image cfg ops file rand s).1 = Outcome.ok k ∧ 1 ≤ k ∧
      (process_image cfg ops file rand s).2.2 ≠ [] := by
  rw [process_image_generate cfg ops file rand s img hl hs hd]
  dsimp only
  have hlen := gen_variants_length cfg ops (stemOf file) img
    (window_of cfg img.width img.height) rand
  have hne : gen_variants cfg ops (stemOf file) img
      (window_of cfg img.width img.height) rand ≠ [] := by
    intro he
    rw [he] at hlen
    simp at hlen
    omega
  obtain ⟨p, rest, hcons⟩ := List.exists_cons_of_ne_nil hne
  rw [hcons, save_variants_cons, if_neg (by simp)]
  exact ⟨_, rfl, by omega, by simp⟩

/-- Witness for C9 with a single crop of a 1×1 image. -/
theorem c9_at_least_one_witness :
    ∃ k, (process_image cfgBase (opsConst (imgOf 1 1 5)) "a.jpg"
        (fun _ => rand0) sEmpty).1 = Outcome.ok k ∧ 1 ≤ k ∧
      (process_image cfgBase (opsConst (imgOf 1 1 5)) "a.jpg"
        (fun _ => rand0) sEmpty).2.2 ≠ [] :=
  c9_at_least_one cfgBase (opsConst (imgOf 1 1 5)) "a.jpg" (fun _ => rand0) sEmpty
    (imgOf 1 1 5) rfl (by decide) (by decide) (by decide)

/-- The Python sentinel `cutoff = False` is formatted by `{cutoff:.2f}` as
the number 0, producing the text `0.00`. -/
theorem format2f_zero : format2f 0 = "0.00" := by
  have h : pyRound ((0 : ℚ) * 100) = 0 := by
    norm_num [pyRound]
  simp only [format2f, h]
  decide

/-- C5 (counterexample): with autocontrast never applied the generated
filename carries `ac0.00` — the numeric formatting of the boolean `False` —
and not a `-1.00`-style sentinel, so the sentinel described by the claim
does not appear (and `0.00` is indistinguishable from a genuine cutoff 0). -/
theorem c5_counterexample :
    (gen_variant cfgRandomized (opsConst (imgOf 1 1 0)) "pic" (imgOf 1 1 0)
      (1, 1) 1 rand0).1 = "out/1-pic--ac0.00.jpg" ∧
    (gen_variant cfgRandomized (opsConst (imgOf 1 1 0)) "pic" (imgOf 1 1 0)
      (1, 1) 1 rand0).1 ≠ "out/1-pic--ac-1.00.jpg" := by
  have h2 : cutoffDrawn cfgRandomized rand0 = none := by
    unfold cutoffDrawn
    rw [if_neg (by decide)]
  have hout : outfile cfgRandomized "pic" 1 none = "out/1-pic--ac0.00.jpg" := by
    have hz := format2f_zero
    simp only [outfile, hz]
    decide
  refine ⟨?_, ?_⟩
  · rw [gen_variant_fst, h2, hout]
  · rw [gen_variant_fst, h2, hout]
    decide

/-- C5 (amended): every persisted-candidate variant's filename follows
`{outputDir}/{index}-{sourceStem}--ac{cutoffFormatted}.{format}` in
randomized-prefix mode and `{outputDir}/{sourceStem}-{index}--ac{cutoffFormatted}.{format}`
otherwise, for an index between 1 and `crops`; `cutoffFormatted` is the
two-decimal formatting of the drawn cutoff when autocontrast was applied
and the text `0.00` (the numeric formatting of the `False` sentinel,
not a `-1.00`-style marker) when it was not. -/
theorem c5_filename_format (cfg : Config) (ops : PixelOps) (stem : String) (img : Image)
    (wmax : ℤ × ℤ) (rand : ℕ → CropRand) :
    ∀ p ∈ gen_variants cfg ops stem img wmax rand,
      ∃ n, 1 ≤ n ∧ n ≤ cfg.crops ∧
        p.1 = cfg.output_dir ++ "/" ++
          (if cfg.randomize then natStr n ++ "-" ++ stem
           else stem ++ "-" ++ natStr n) ++ "--ac" ++
          (match cutoffDrawn cfg (rand n) with
           | none => "0.00"
           | some c => format2f c) ++ "." ++ cfg.format := by
  rw [gen_variants_eq]
  intro p hp
  rw [List.mem_map] at hp
  obtain ⟨n, hn, rfl⟩ := hp
  rw [List.mem_range'_1] at hn
  refine ⟨n, hn.1, by omega, ?_⟩
  rw [gen_variant_fst]
  unfold outfile
  rcases hco : cutoffDrawn cfg (rand n) with _ | c
  · rw [← format2f_zero]
    cases hcr : cfg.randomize <;>
      simp [hcr, String.ext_iff, String.data_append, List.append_assoc]
  · cases hcr : cfg.randomize <;>
      simp [hcr, String.ext_iff, String.data_append, List.append_assoc]

/-- Witness for C5 (amended): the first variant of a concrete two-crop
generation follows the amended pattern. -/
theorem c5_filename_format_witness :
    ∃ n, 1 ≤ n ∧ n ≤ cfgCrops2.crops ∧
      (gen_variant cfgCrops2 (opsConst (imgOf 1 1 5)) "pic" (imgOf 1 1 5)
        (1, 1) 1 ((fun _ => rand0) 1)).1 = cfgCrops2.output_dir ++ "/" ++
        (if cfgCrops2.randomize then natStr n ++ "-" ++ "pic"
         else "pic" ++ "-" ++ natStr n) ++ "--ac" ++
        (match cutoffDrawn cfgCrops2 ((fun _ => rand0) n) with
         | none => "0.00"
         | some c => format2f c) ++ "." ++ cfgCrops2.format :=
  c5_filename_format cfgCrops2 (opsConst (imgOf 1 1 5)) "pic" (imgOf 1 1 5)
    (1, 1) (fun _ => rand0)
    (gen_variant cfgCrops2 (opsConst (imgOf 1 1 5)) "pic" (imgOf 1 1 5)
      (1, 1) 1 ((fun _ => rand0) 1))
    (by
      rw [gen_variants_eq]
      exact List.mem_map_of_mem _ (by decide))

/-- C8: the shared counters are incremented by the plain `stats[...] += 1`
of src/augmentor.py lines 66 and 115 with no synchronization, and such an
increment is a read step followed by a write step.  Two workers running
serially reach counter 2, but the interleaving read-read-write-write
finishes at 1: one increment is lost, so the claimed atomicity does not
hold for the code. -/
theorem c8_lost_update :
    runSched [CtrStep.read 0, CtrStep.write 0, CtrStep.read 1, CtrStep.write 1]
      0 (fun _ => 0) = 2 ∧
    runSched [CtrStep.read 0, CtrStep.read 1, CtrStep.write 0, CtrStep.write 1]
      0 (fun _ => 0) = 1 := by
  constructor <;> rfl

/-- C10: when a selection limit is configured but exceeds the number of
discovered files, `random.sample` fails and the swallowed exception makes
the pipeline silently fall back to all discovered files; without a limit
the discovered list is used as-is.  `select_files` is total, so the
selection step never raises. -/
theorem c10_limit_fallback (files chosen : List String) (k : ℤ)
    (hk : (files.length : ℤ) < k) :
    select_files files chosen (some k) = files ∧
    select_files files chosen none = files := by
  refine ⟨?_, rfl⟩
  show (if k = 0 then files
    else if 0 ≤ k ∧ k.toNat ≤ files.length then chosen else files) = files
  rw [if_neg (by omega), if_neg ?_]
  rintro ⟨hpos, hle⟩
  omega

/-- Witness for C10: limit 5 against two discovered files. -/
theorem c10_limit_fallback_witness :
    select_files ["a.jpg", "b.jpg"] ["a.jpg"] (some 5) = ["a.jpg", "b.jpg"] ∧
    select_files ["a.jpg", "b.jpg"] ["a.jpg"] none = ["a.jpg", "b.jpg"] :=
  c10_limit_fallback ["a.jpg", "b.jpg"] ["a.jpg"] 5 (by decide)

/-- Witness for C4 (amended): square 2×2 target inside a 4×4 source at the
minimum admissible scale. -/
theorem c4_scale_floor_witness :
    (cfgSquare.width : ℤ) ≤
      (crop_dims (window_of cfgSquare 4 4)
        (scaleDrawn cfgSquare (window_of cfgSquare 4 4) rand0)).1 ∧
    (cfgSquare.height ≤ cfgSquare.width →
      (cfgSquare.height : ℤ) ≤
        (crop_dims (window_of cfgSquare 4 4)
          (scaleDrawn cfgSquare (window_of cfgSquare 4 4) rand0)).2) :=
  c4_scale_floor cfgSquare 4 4 rand0 (by decide) (by decide) (by decide) (by decide)
    (by decide) (by decide)
    (by norm_num [window_of, get_max_window_size, cfgSquare, cfgBase])

end Augmentor
